import Mathlib

/-!
Verification of the OverlayScrollbars environment capability-detection
subsystem and DOM node insertion/removal utilities.

The development shallowly embeds two source components:

* the `Environment` class (environment facts probe and change notifier):
  its constructor and the window `resize` handler it installs, including
  the zoom-vs-resize discrimination heuristic `diffBiggerThanOne`;
* the DOM manipulation utilities `before`, `appendChildren`,
  `prependChildren`, `insertBefore`, `insertAfter` and `removeElements`.

JS numbers are modelled as rationals (`ℚ`); `Math.round` is Mathlib's
`round` (both compute `⌊x + 1/2⌋`).  Browser side effects of the resize
handler (inserting the measurement element, removing it, invoking
listeners) are modelled as an explicit effect trace.  The DOM tree is
modelled as an association list from a node id to its list of child ids.
-/

namespace OverlayScrollbars

/-! ## Environment: data model -/

/-- `XY` pairs from the source (`{x, y}` objects). -/
structure XY (α : Type) where
  x : α
  y : α
deriving DecidableEq, Repr

/-- Window / element dimensions `{w, h}` as returned by `windowSize`,
`clientSize` and `offsetSize`. -/
structure WH where
  w : ℚ
  h : ℚ
deriving DecidableEq, Repr

/-- RTL scroll behavior flags `{i, n}`. -/
structure RtlScrollBehavior where
  i : Bool
  n : Bool
deriving DecidableEq, Repr

/-- `nativeScrollbarSize`: the scrollbar thickness computed from a client
size and an offset size of the measurement element; the thickness on one
axis comes from the *other* dimension's delta (`x := oSize.h - cSize.h`,
`y := oSize.w - cSize.w`). -/
def nativeScrollbarSize (cSize oSize : WH) : XY ℚ :=
  { x := oSize.h - cSize.h
    y := oSize.w - cSize.w }

/-- `diffBiggerThanOne(valOne, valTwo)` from the source:
`!(|a| === |b| || |a| + 1 === |b| || |a| - 1 === |b|)`. -/
def diffBiggerThanOne (valOne valTwo : ℚ) : Bool :=
  let absValOne := |valOne|
  let absValTwo := |valTwo|
  !(absValOne == absValTwo || absValOne + 1 == absValTwo || absValOne - 1 == absValTwo)

/-- The state of an `Environment` instance: the facts fields, the
`#onChangedListener` set (modelled as a duplicate-free list of listener
ids in insertion order, matching JS `Set` iteration), the closure
variables `size` and `dpr` of the resize handler, and whether the
`resize` listener was installed at construction. -/
structure Environment where
  autoUpdateLoop : Bool
  nativeScrollbarSize : XY ℚ
  nativeScrollbarIsOverlaid : XY Bool
  nativeScrollbarStyling : Bool
  rtlScrollBehavior : RtlScrollBehavior
  supportPassiveEvents : Bool
  supportResizeObserver : Bool
  onChangedListener : List ℕ
  size : WH
  dpr : ℚ
  resizeListenerInstalled : Bool
deriving DecidableEq, Repr

/-- The environment readings consumed by the constructor: the client and
offset size of the measurement element (from which the scrollbar size is
derived), the results of the other capability probes, and the initial
`windowSize()` / `windowDPR()` readings. -/
structure ProbeInputs where
  envClientSize : WH
  envOffsetSize : WH
  scrollbarStyling : Bool
  rtl : RtlScrollBehavior
  passiveEvents : Bool
  resizeObserver : Bool
  windowSize : WH
  windowDPR : ℚ
deriving DecidableEq, Repr

/-- The `Environment` constructor: measures the native scrollbar size,
derives `nativeScrollbarIsOverlaid` per axis as `thickness === 0`,
records the other capability facts, and installs the resize listener
iff `!nativeScrollbarIsOverlaid.x || !nativeScrollbarIsOverlaid.y`.
The listener set starts empty; `size` and `dpr` hold the construction
time `windowSize()` / `windowDPR()` baselines. -/
def Environment.construct (p : ProbeInputs) : Environment :=
  let nScrollBarSize := OverlayScrollbars.nativeScrollbarSize p.envClientSize p.envOffsetSize
  let overlaid : XY Bool := { x := nScrollBarSize.x == 0, y := nScrollBarSize.y == 0 }
  { autoUpdateLoop := false
    nativeScrollbarSize := nScrollBarSize
    nativeScrollbarIsOverlaid := overlaid
    nativeScrollbarStyling := p.scrollbarStyling
    rtlScrollBehavior := p.rtl
    supportPassiveEvents := p.passiveEvents
    supportResizeObserver := p.resizeObserver
    onChangedListener := []
    size := p.windowSize
    dpr := p.windowDPR
    resizeListenerInstalled := !(overlaid.x && overlaid.y) }

/-- `addListener`: JS `Set.add` — appends iff not already present. -/
def Environment.addListener (s : Environment) (l : ℕ) : Environment :=
  if s.onChangedListener.contains l then s
  else { s with onChangedListener := s.onChangedListener ++ [l] }

/-- `removeListener`: JS `Set.delete`. -/
def Environment.removeListener (s : Environment) (l : ℕ) : Environment :=
  { s with onChangedListener := s.onChangedListener.erase l }

/-- A window `resize` event, bundling the readings the handler would
obtain from the browser: the new `windowSize()`, the new `windowDPR()`,
and the client/offset sizes the measurement element would report if the
scrollbar-size probe were re-run during this event. -/
structure ResizeEvent where
  sizeNew : WH
  dprNew : ℚ
  envClientSize : WH
  envOffsetSize : WH
deriving DecidableEq, Repr

/-- Observable side effects of the resize handler, in order:
`measure` is the `nativeScrollbarSize(body, envElm)` call (which inserts
the measurement element under `body`), `removeElm` is the
`removeElements(envElm)` call, and `notify l env` is the invocation of
listener `l` with the environment object in the state it has at call
time. -/
inductive Effect where
  | measure : Effect
  | removeElm : Effect
  | notify : ℕ → Environment → Effect
deriving DecidableEq, Repr

/-- The zoom classification computed by the resize handler:
`deltaIsBigger && difference && dprChanged` where
`deltaIsBigger = |Δw| > 2 && |Δh| > 2`,
`difference = !diffBiggerThanOne(|round(w'/(w/100))|, |round(h'/(h/100))|)` and
`dprChanged = dprNew !== dpr && dpr > 0`. -/
def isZoom (s : Environment) (e : ResizeEvent) : Bool :=
  let deltaAbsSize : WH := { w := |e.sizeNew.w - s.size.w|, h := |e.sizeNew.h - s.size.h| }
  let deltaAbsRatio : WH :=
    { w := |(round (e.sizeNew.w / (s.size.w / 100)) : ℤ)|
      h := |(round (e.sizeNew.h / (s.size.h / 100)) : ℤ)| }
  let deltaIsBigger := deltaAbsSize.w > 2 && deltaAbsSize.h > 2
  let difference := !diffBiggerThanOne (deltaAbsRatio.w : ℚ) (deltaAbsRatio.h : ℚ)
  let dprChanged := e.dprNew != s.dpr && s.dpr > 0
  deltaIsBigger && difference && dprChanged

/-- The body of the `resize` handler installed by the constructor.
Returns the state after the event together with the trace of observable
effects.  Mirrors the source: if the listener set is empty nothing
happens; if both size deltas are zero the handler returns early (before
reading the new DPR or updating the baselines); on a zoom it re-runs the
scrollbar-size measurement, stores the new size, removes the measurement
element, and — only if the size changed on either axis — invokes every
listener with the already-updated environment; finally `size` and `dpr`
are set to the event's values. -/
def Environment.handleResize (s : Environment) (e : ResizeEvent) :
    Environment × List Effect :=
  if s.onChangedListener.isEmpty then (s, [])
  else
    let deltaSize : WH := { w := e.sizeNew.w - s.size.w, h := e.sizeNew.h - s.size.h }
    if deltaSize.w == 0 && deltaSize.h == 0 then (s, [])
    else
      let oldScrollbarSize := s.nativeScrollbarSize
      if isZoom s e then
        let newScrollbarSize :=
          OverlayScrollbars.nativeScrollbarSize e.envClientSize e.envOffsetSize
        let s' := { s with nativeScrollbarSize := newScrollbarSize }
        let notifies :=
          if oldScrollbarSize.x != newScrollbarSize.x || oldScrollbarSize.y != newScrollbarSize.y
          then s'.onChangedListener.map (fun l => Effect.notify l s')
          else []
        ({ s' with size := e.sizeNew, dpr := e.dprNew },
          [Effect.measure, Effect.removeElm] ++ notifies)
      else
        ({ s with size := e.sizeNew, dpr := e.dprNew }, [])

/-- A `resize` event dispatched by the window: it reaches the handler
only if the constructor installed one. -/
def Environment.resizeStep (s : Environment) (e : ResizeEvent) :
    Environment × List Effect :=
  if s.resizeListenerInstalled then s.handleResize e else (s, [])

/-- An operation on a constructed `Environment`: the public listener API
or a window `resize` event.  A state is *reachable* when it arises from
`Environment.construct` by a sequence of these operations. -/
inductive EnvOp where
  | addListener (l : ℕ)
  | removeListener (l : ℕ)
  | resize (e : ResizeEvent)
deriving DecidableEq, Repr

/-- Apply one operation, returning the new state and its effect trace. -/
def applyOp (s : Environment) : EnvOp → Environment × List Effect
  | .addListener l => (s.addListener l, [])
  | .removeListener l => (s.removeListener l, [])
  | .resize e => s.resizeStep e

/-- Apply a sequence of operations, concatenating the effect traces. -/
def applyOps (s : Environment) : List EnvOp → Environment × List Effect
  | [] => (s, [])
  | op :: ops =>
    let (s1, eff1) := applyOp s op
    let (s2, eff2) := applyOps s1 ops
    (s2, eff1 ++ eff2)

/-- The zoom classification as the specification sentence words it: both
axis pixel deltas exceed 2px; the two per-axis percentage ratios
(`new / (old/100)`, rounded, absolute value) are judged close, where
close means their absolute values do **not** differ by exactly 0 or
exactly 1; and the device pixel ratio differs from the recorded positive
baseline.  (Stated for comparison with the code's classification.) -/
def specZoomAsWritten (s : Environment) (e : ResizeEvent) : Prop :=
  let ratioW := |(round (e.sizeNew.w / (s.size.w / 100)) : ℤ)|
  let ratioH := |(round (e.sizeNew.h / (s.size.h / 100)) : ℤ)|
  (|e.sizeNew.w - s.size.w| > 2 ∧ |e.sizeNew.h - s.size.h| > 2) ∧
  ¬(|ratioW - ratioH| = 0 ∨ |ratioW - ratioH| = 1) ∧
  (e.dprNew ≠ s.dpr ∧ s.dpr > 0)

/-- The zoom classification with the closeness clause corrected: the two
per-axis percentage ratios are judged close when their absolute values
differ by exactly 0 or exactly 1. -/
def specZoomAmended (s : Environment) (e : ResizeEvent) : Prop :=
  let ratioW := |(round (e.sizeNew.w / (s.size.w / 100)) : ℤ)|
  let ratioH := |(round (e.sizeNew.h / (s.size.h / 100)) : ℤ)|
  (|e.sizeNew.w - s.size.w| > 2 ∧ |e.sizeNew.h - s.size.h| > 2) ∧
  (|ratioW - ratioH| = 0 ∨ |ratioW - ratioH| = 1) ∧
  (e.dprNew ≠ s.dpr ∧ s.dpr > 0)

/-- Probe readings of a platform with 17px classic scrollbars on both
axes, used for concrete instances. -/
def probeClassic : ProbeInputs :=
  { envClientSize := ⟨200, 200⟩
    envOffsetSize := ⟨217, 217⟩
    scrollbarStyling := false
    rtl := ⟨false, false⟩
    passiveEvents := true
    resizeObserver := true
    windowSize := ⟨1000, 1000⟩
    windowDPR := 1 }

/-- Probe readings of a platform with overlay scrollbars on both axes
(measured thickness 0). -/
def probeOverlaid : ProbeInputs :=
  { envClientSize := ⟨200, 200⟩
    envOffsetSize := ⟨200, 200⟩
    scrollbarStyling := true
    rtl := ⟨false, false⟩
    passiveEvents := true
    resizeObserver := true
    windowSize := ⟨1000, 1000⟩
    windowDPR := 1 }

/-- A classic-scrollbar environment with one registered listener. -/
def envClassic : Environment :=
  (Environment.construct probeClassic).addListener 7

/-- A resize event satisfying the zoom heuristic (deltas of 100px on
both axes, equal percentage ratios, DPR change from 1 to 2) during which
a re-probe would measure a scrollbar thickness of 0 on both axes. -/
def zoomEvent : ResizeEvent :=
  { sizeNew := ⟨900, 900⟩
    dprNew := 2
    envClientSize := ⟨200, 200⟩
    envOffsetSize := ⟨200, 200⟩ }

/-- A resize event with unchanged window size but a changed device pixel
ratio. -/
def dprOnlyEvent : ResizeEvent :=
  { sizeNew := ⟨1000, 1000⟩
    dprNew := 2
    envClientSize := ⟨200, 200⟩
    envOffsetSize := ⟨200, 200⟩ }

/-! ## DOM model

The document tree is an association list from a node id to the ordered
list of its child ids.  A node is *detached* when it occurs in no
children list.  The operations below embed the DOM primitives used by
`manipulation.ts`: `previousSibling` / `nextSibling` / `firstChild`,
`appendChild` (which moves a node), `insertBefore` (which throws
`NotFoundError` when the anchor is not a child of the parent) and
`removeChild`. -/

abbrev Node := ℕ

abbrev Dom := List (Node × List Node)

/-- The children list of `p` (empty when `p` has no entry). -/
def childrenOf : Dom → Node → List Node
  | [], _ => []
  | e :: rest, p => if e.1 == p then e.2 else childrenOf rest p

/-- Whether the tree has an entry for `p`. -/
def hasEntry : Dom → Node → Bool
  | [], _ => false
  | e :: rest, p => e.1 == p || hasEntry rest p

/-- `n.parentNode`: the first node whose children contain `n`. -/
def parentOf : Dom → Node → Option Node
  | [], _ => Option.none
  | e :: rest, n => if e.2.contains n then some e.1 else parentOf rest n

/-- Replace the children list of the first entry for `p` (adding an
entry at the end if absent). -/
def setChildren : Dom → Node → List Node → Dom
  | [], p, cs => [(p, cs)]
  | e :: rest, p, cs => if e.1 == p then (p, cs) :: rest else e :: setChildren rest p cs

/-- `p.removeChild(n)`. -/
def removeChildOf (d : Dom) (p n : Node) : Dom :=
  setChildren d p ((childrenOf d p).erase n)

/-- Detach `n` from its parent, if it has one (otherwise a no-op). -/
def removeNode (d : Dom) (n : Node) : Dom :=
  match parentOf d n with
  | some p => removeChildOf d p n
  | none => d

/-- The element immediately before the first occurrence of `n`. -/
def prevInList (cs : List Node) (n : Node) : Option Node :=
  match cs.indexOf? n with
  | none => none
  | some 0 => none
  | some (i + 1) => cs.get? i

/-- The element immediately after the first occurrence of `n`. -/
def nextInList (cs : List Node) (n : Node) : Option Node :=
  match cs.indexOf? n with
  | none => none
  | some i => cs.get? (i + 1)

/-- `n.previousSibling` (none for a detached node). -/
def previousSibling (d : Dom) (n : Node) : Option Node :=
  match parentOf d n with
  | some p => prevInList (childrenOf d p) n
  | none => none

/-- `n.nextSibling` (none for a detached node). -/
def nextSibling (d : Dom) (n : Node) : Option Node :=
  match parentOf d n with
  | some p => nextInList (childrenOf d p) n
  | none => none

/-- `p.firstChild`. -/
def firstChild (d : Dom) (p : Node) : Option Node :=
  (childrenOf d p).head?

/-- The maximum of a list of node ids. -/
def listMax : List ℕ → ℕ
  | [] => 0
  | x :: xs => max x (listMax xs)

/-- An upper bound on every node id occurring in the tree. -/
def nodeBound : Dom → ℕ
  | [] => 0
  | e :: rest => max (max e.1 (listMax e.2)) (nodeBound rest)

/-- A node id strictly larger than every id occurring in the tree, used
to model `document.createDocumentFragment()` allocating a fresh node. -/
def freshNode (d : Dom) : Node :=
  nodeBound d + 1

/-- `p.appendChild(n)`: detach `n` from its current parent, then append
it at the end of `p`'s children. -/
def domAppendChild (d : Dom) (p n : Node) : Dom :=
  let d1 := removeNode d n
  setChildren d1 p (childrenOf d1 p ++ [n])

/-- Insert `ns` immediately before the first occurrence of `a`
(appending at the end when `a` does not occur). -/
def spliceBefore : List Node → Node → List Node → List Node
  | [], _, ns => ns
  | c :: rest, a, ns => if c == a then ns ++ c :: rest else c :: spliceBefore rest a ns

/-- The DOM `NotFoundError` raised by `insertBefore` when the anchor is
not a child of the parent. -/
inductive DomError where
  | notFound
deriving DecidableEq, Repr

/-- `parent.insertBefore(node, anchor)` where `node` holds the children
`ns` (a document fragment's children, or a single node): validate that a
non-null anchor is a child of `p` (throw `NotFoundError` otherwise),
replace an anchor that is itself being inserted by its next sibling,
detach the `ns` from their current parents, then splice them, in order,
before the anchor (at the end for a null anchor). -/
def domInsertNodesBefore (d : Dom) (p : Node) (ns : List Node) (anchor : Option Node) :
    Except DomError Dom :=
  match anchor with
  | some a =>
    if (childrenOf d p).contains a then
      let ref := if ns.contains a then nextInList (childrenOf d p) a else some a
      let d1 := ns.foldl removeNode d
      match ref with
      | some r => .ok (setChildren d1 p (spliceBefore (childrenOf d1 p) r ns))
      | none => .ok (setChildren d1 p (childrenOf d1 p ++ ns))
    else .error .notFound
  | none =>
    let d1 := ns.foldl removeNode d
    .ok (setChildren d1 p (childrenOf d1 p ++ ns))

/-- Drop the (emptied) fragment entry after its children were moved. -/
def eraseEntry (d : Dom) (p : Node) : Dom :=
  d.filter (fun e => e.1 != p)

/-- The `NodeCollection` of `manipulation.ts`: `null`/`undefined`
(falsy), a single node, or an array-like of nodes (truthy even when
empty). -/
inductive NodeCollection where
  | none
  | node (n : Node)
  | nodes (ns : List Node)
deriving DecidableEq, Repr

/-- The `each` loop of `before`: for each inserted element, if it is the
current anchor the anchor becomes the element's previous sibling (read
before the move), then the element is appended to the fragment. -/
def buildFragment (fragId : Node) : Dom × Option Node → List Node → Dom × Option Node
  | st, [] => st
  | (d, anchor), elm :: rest =>
    let anchor' := if anchor == some elm then previousSibling d elm else anchor
    buildFragment fragId (domAppendChild d fragId elm, anchor') rest

/-- `before(parent, preferredAnchor, insertedElms)` from
`manipulation.ts`.  Falsy `insertedElms` or a null parent are no-ops.
An array-like is gathered into a fresh document fragment, updating the
anchor when it is itself inserted; then, for a non-null preferred
anchor, a null anchor falls back to the parent's first child, and an
anchor different from the preferred one is advanced to its next
sibling; finally the fragment (or the single node) is inserted before
the anchor. -/
def before (d : Dom) (par : Option Node) (preferredAnchor : Option Node)
    (insertedElms : NodeCollection) : Except DomError Dom :=
  match insertedElms with
  | .none => .ok d
  | .node n =>
    match par with
    | none => .ok d
    | some p =>
      -- the anchor-rewriting loop is skipped, so the anchor fixup keeps
      -- the preferred anchor unchanged
      domInsertNodesBefore d p [n] preferredAnchor
  | .nodes elms =>
    match par with
    | none => .ok d
    | some p =>
      let fragId := freshNode d
      let d0 := d ++ [(fragId, [])]
      let (d1, anchor) := buildFragment fragId (d0, preferredAnchor) elms
      let anchor2 :=
        match preferredAnchor with
        | none => anchor
        | some pa =>
          match anchor with
          | none => firstChild d1 p
          | some a => if a == pa then some a else nextSibling d1 a
      match domInsertNodesBefore d1 p (childrenOf d1 fragId) anchor2 with
      | .ok d2 => .ok (eraseEntry d2 fragId)
      | .error err => .error err

/-- `appendChildren(node, children) = before(node, null, children)`. -/
def appendChildren (d : Dom) (node : Option Node) (children : NodeCollection) :
    Except DomError Dom :=
  before d node Option.none children

/-- `prependChildren(node, children) = before(node, node && node.firstChild, children)`. -/
def prependChildren (d : Dom) (node : Option Node) (children : NodeCollection) :
    Except DomError Dom :=
  before d node (node.bind (firstChild d)) children

/-- `insertBefore(node, insertedNodes) = before(parent(node), node, insertedNodes)`. -/
def insertBefore (d : Dom) (node : Option Node) (insertedNodes : NodeCollection) :
    Except DomError Dom :=
  before d (node.bind (parentOf d)) node insertedNodes

/-- `insertAfter(node, insertedNodes) = before(parent(node), node && node.nextSibling, insertedNodes)`. -/
def insertAfter (d : Dom) (node : Option Node) (insertedNodes : NodeCollection) :
    Except DomError Dom :=
  before d (node.bind (parentOf d)) (node.bind (nextSibling d)) insertedNodes

/-- `removeElements(nodes)`: recurse over an array-like; detach a single
node from its parent if it has one. -/
def removeElements (d : Dom) : NodeCollection → Dom
  | .none => d
  | .node n => removeNode d n
  | .nodes ns => ns.foldl removeNode d

/-- Well-formedness of a document tree: entry keys are distinct, each
children list is duplicate-free, and no node is a child of two entries.
Every tree reachable from real DOM operations satisfies this. -/
def WFDom (d : Dom) : Prop :=
  (d.map Prod.fst).Nodup ∧
  (∀ e ∈ d, e.2.Nodup) ∧
  d.Pairwise (fun e1 e2 => ∀ n ∈ e1.2, n ∉ e2.2)

/-! ## Environment helper lemmas -/

theorem handleResize_of_no_listeners (s : Environment) (e : ResizeEvent)
    (h : s.onChangedListener = []) : s.handleResize e = (s, []) := by
  simp [Environment.handleResize, h]

theorem addListener_nativeScrollbarSize (s : Environment) (l : ℕ) :
    (s.addListener l).nativeScrollbarSize = s.nativeScrollbarSize := by
  unfold Environment.addListener
  split <;> rfl

theorem addListener_overlaid (s : Environment) (l : ℕ) :
    (s.addListener l).nativeScrollbarIsOverlaid = s.nativeScrollbarIsOverlaid := by
  unfold Environment.addListener
  split <;> rfl

theorem addListener_installed (s : Environment) (l : ℕ) :
    (s.addListener l).resizeListenerInstalled = s.resizeListenerInstalled := by
  unfold Environment.addListener
  split <;> rfl

theorem handleResize_overlaid (s : Environment) (e : ResizeEvent) :
    (s.handleResize e).1.nativeScrollbarIsOverlaid = s.nativeScrollbarIsOverlaid := by
  simp only [Environment.handleResize]
  repeat' split
  all_goals rfl

theorem resizeStep_overlaid (s : Environment) (e : ResizeEvent) :
    (s.resizeStep e).1.nativeScrollbarIsOverlaid = s.nativeScrollbarIsOverlaid := by
  unfold Environment.resizeStep
  split
  · exact handleResize_overlaid s e
  · rfl

theorem applyOp_overlaid (s : Environment) (op : EnvOp) :
    (applyOp s op).1.nativeScrollbarIsOverlaid = s.nativeScrollbarIsOverlaid := by
  cases op with
  | addListener l => exact addListener_overlaid s l
  | removeListener l => rfl
  | resize e => exact resizeStep_overlaid s e

theorem applyOps_overlaid (s : Environment) (ops : List EnvOp) :
    (applyOps s ops).1.nativeScrollbarIsOverlaid = s.nativeScrollbarIsOverlaid := by
  induction ops generalizing s with
  | nil => rfl
  | cons op ops ih =>
    show (applyOps (applyOp s op).1 ops).1.nativeScrollbarIsOverlaid = _
    rw [ih, applyOp_overlaid]

theorem handleResize_zero_delta (s : Environment) (e : ResizeEvent)
    (hw : e.sizeNew.w = s.size.w) (hh : e.sizeNew.h = s.size.h) :
    s.handleResize e = (s, []) := by
  unfold Environment.handleResize
  simp [hw, hh]

theorem resizeStep_not_installed (s : Environment) (e : ResizeEvent)
    (h : s.resizeListenerInstalled = false) : s.resizeStep e = (s, []) := by
  simp [Environment.resizeStep, h]

theorem applyOps_not_installed (s : Environment) (ops : List EnvOp)
    (h : s.resizeListenerInstalled = false) :
    (applyOps s ops).1.nativeScrollbarSize = s.nativeScrollbarSize ∧
    (applyOps s ops).1.resizeListenerInstalled = false ∧
    (applyOps s ops).2 = [] := by
  induction ops generalizing s with
  | nil => exact ⟨rfl, h, rfl⟩
  | cons op ops ih =>
    have hstep : (applyOp s op).1.nativeScrollbarSize = s.nativeScrollbarSize ∧
        (applyOp s op).1.resizeListenerInstalled = false ∧ (applyOp s op).2 = [] := by
      cases op with
      | addListener l =>
        exact ⟨addListener_nativeScrollbarSize s l, (addListener_installed s l).trans h, rfl⟩
      | removeListener l => exact ⟨rfl, h, rfl⟩
      | resize e =>
        have hr : applyOp s (EnvOp.resize e) = (s, []) := resizeStep_not_installed s e h
        rw [hr]
        exact ⟨rfl, h, rfl⟩
    have ihs := ih (applyOp s op).1 hstep.2.1
    refine ⟨?_, ihs.2.1, ?_⟩
    · show (applyOps (applyOp s op).1 ops).1.nativeScrollbarSize = _
      rw [ihs.1, hstep.1]
    · show (applyOp s op).2 ++ (applyOps (applyOp s op).1 ops).2 = []
      rw [ihs.2.2, hstep.2.2]
      rfl

theorem diffBiggerThanOne_eq_false (valOne valTwo : ℚ) :
    diffBiggerThanOne valOne valTwo = false ↔
      |valOne| = |valTwo| ∨ |valOne| + 1 = |valTwo| ∨ |valOne| - 1 = |valTwo| := by
  simp only [diffBiggerThanOne, Bool.not_eq_false', Bool.or_eq_true, beq_iff_eq]
  tauto

theorem diffBiggerThanOne_nonneg_int (a b : ℤ) (ha : 0 ≤ a) (hb : 0 ≤ b) :
    diffBiggerThanOne (a : ℚ) (b : ℚ) = false ↔ (|a - b| = 0 ∨ |a - b| = 1) := by
  rw [diffBiggerThanOne_eq_false,
    abs_of_nonneg (show (0:ℚ) ≤ (a:ℚ) by exact_mod_cast ha),
    abs_of_nonneg (show (0:ℚ) ≤ (b:ℚ) by exact_mod_cast hb)]
  have h1 : (a:ℚ) = (b:ℚ) ↔ a = b := Int.cast_inj
  have h2 : (a:ℚ) + 1 = (b:ℚ) ↔ a + 1 = b :=
    ⟨fun h => by exact_mod_cast h, fun h => by exact_mod_cast h⟩
  have h3 : (a:ℚ) - 1 = (b:ℚ) ↔ a - 1 = b :=
    ⟨fun h => by exact_mod_cast h, fun h => by exact_mod_cast h⟩
  rw [h1, h2, h3, abs_eq_zero, sub_eq_zero, abs_eq (by norm_num : (0:ℤ) ≤ 1)]
  omega

theorem diffBiggerThanOne_absInt (m n : ℤ) :
    diffBiggerThanOne ((|m| : ℤ) : ℚ) ((|n| : ℤ) : ℚ) = false ↔
      (|(|m| - |n|)| = 0 ∨ |(|m| - |n|)| = 1) :=
  diffBiggerThanOne_nonneg_int _ _ (abs_nonneg m) (abs_nonneg n)

theorem isZoom_iff_specZoomAmended (s : Environment) (e : ResizeEvent) :
    isZoom s e = true ↔ specZoomAmended s e := by
  unfold isZoom specZoomAmended
  dsimp only
  simp only [Bool.and_eq_true, decide_eq_true_eq, Bool.not_eq_true', bne_iff_ne,
    ← Int.cast_abs, diffBiggerThanOne_absInt]
  tauto

/-! ## Claims -/

/-- **C7.** For all numbers `a` and `b`, `diffBiggerThanOne a b` returns
`false` exactly when the absolute values of `a` and `b` are equal or
differ by exactly 1 in either direction (`|a| + 1 = |b|` or
`|a| - 1 = |b|`): ratio differences of exactly 0 or exactly 1 are
accepted as close, and every other difference makes it return `true`. -/
theorem diffBiggerThanOne_false_iff (valOne valTwo : ℚ) :
    diffBiggerThanOne valOne valTwo = false ↔
      |valOne| = |valTwo| ∨ |valOne| + 1 = |valTwo| ∨ |valOne| - 1 = |valTwo| :=
  diffBiggerThanOne_eq_false valOne valTwo

/-- **C5.** A resize event arriving while the set of registered
listeners is empty performs no work at all: the state (all facts fields
and the window-size/DPR baseline) is unchanged, and the effect trace is
empty (no measurement element inserted, no listener invoked). -/
theorem resize_no_listeners_noop (s : Environment) (e : ResizeEvent)
    (h : s.onChangedListener = []) : s.resizeStep e = (s, []) := by
  unfold Environment.resizeStep
  rw [handleResize_of_no_listeners s e h]
  simp

/-- Witness for C5 at a concrete freshly constructed environment. -/
theorem resize_no_listeners_noop_witness :
    (Environment.construct probeClassic).onChangedListener = [] ∧
    (Environment.construct probeClassic).resizeStep zoomEvent =
      (Environment.construct probeClassic, []) :=
  ⟨rfl, resize_no_listeners_noop _ _ rfl⟩

/-- **C10.** A resize event firing while at least one listener is
registered but with the window size unchanged on both axes returns
before zoom classification: the state is unchanged (in particular the
recorded DPR baseline is not updated even if the device pixel ratio
changed during the event) and no effect occurs. -/
theorem resize_zero_delta_noop (s : Environment) (e : ResizeEvent)
    (_hl : s.onChangedListener ≠ [])
    (hw : e.sizeNew.w = s.size.w) (hh : e.sizeNew.h = s.size.h) :
    s.resizeStep e = (s, []) := by
  unfold Environment.resizeStep
  rw [handleResize_zero_delta s e hw hh]
  simp

/-- Witness for C10: a pure DPR change with unchanged window size leaves
a listening environment untouched. -/
theorem resize_zero_delta_noop_witness :
    envClassic.onChangedListener ≠ [] ∧
    dprOnlyEvent.sizeNew.w = envClassic.size.w ∧
    dprOnlyEvent.sizeNew.h = envClassic.size.h ∧
    envClassic.resizeStep dprOnlyEvent = (envClassic, []) :=
  ⟨by decide, by decide, by decide,
    resize_zero_delta_noop envClassic dprOnlyEvent (by decide) (by decide) (by decide)⟩

/-- **C6** (counterexample). The claim "the stored window-size and
device-pixel-ratio baselines are updated to the event's new values on
every resize event" fails: on an event with unchanged window size but a
changed device pixel ratio, processed with a registered listener, the
handler returns early and the stored DPR baseline keeps its old value
instead of the event's new one. -/
theorem baselines_update_counterexample :
    envClassic.onChangedListener ≠ [] ∧
    (envClassic.handleResize dprOnlyEvent).1.dpr ≠ dprOnlyEvent.dprNew := by
  have h : envClassic.handleResize dprOnlyEvent = (envClassic, []) :=
    handleResize_zero_delta _ _ (by decide) (by decide)
  rw [h]
  refine ⟨by decide, ?_⟩
  norm_num [envClassic, Environment.addListener, Environment.construct, probeClassic,
    dprOnlyEvent]

/-- **C6** (amended). On every resize event processed while at least one
listener is registered and whose window size differs from the baseline
on at least one axis, the stored window-size and DPR baselines are
updated to the event's new values regardless of zoom classification. -/
theorem handleResize_updates_baselines (s : Environment) (e : ResizeEvent)
    (hl : s.onChangedListener ≠ [])
    (hd : ¬(e.sizeNew.w = s.size.w ∧ e.sizeNew.h = s.size.h)) :
    (s.handleResize e).1.size = e.sizeNew ∧ (s.handleResize e).1.dpr = e.dprNew := by
  unfold Environment.handleResize
  split
  · rename_i hE
    exact absurd (List.isEmpty_iff.mp hE) hl
  · dsimp only
    split
    · rename_i hz
      rw [Bool.and_eq_true, beq_iff_eq, beq_iff_eq] at hz
      exact absurd ⟨sub_eq_zero.mp hz.1, sub_eq_zero.mp hz.2⟩ hd
    · split
      · exact ⟨rfl, rfl⟩
      · exact ⟨rfl, rfl⟩

/-- Witness for the amended C6 at a concrete zoom event. -/
theorem handleResize_updates_baselines_witness :
    envClassic.onChangedListener ≠ [] ∧
    ¬(zoomEvent.sizeNew.w = envClassic.size.w ∧ zoomEvent.sizeNew.h = envClassic.size.h) ∧
    ((envClassic.handleResize zoomEvent).1.size = zoomEvent.sizeNew ∧
      (envClassic.handleResize zoomEvent).1.dpr = zoomEvent.dprNew) :=
  ⟨by decide, by decide,
    handleResize_updates_baselines envClassic zoomEvent (by decide) (by decide)⟩

/-- **C1** (counterexample). The invariant "`nativeScrollbarIsOverlaid.x`
iff `nativeScrollbarSize.x = 0` at every reachable state" fails: after a
zoom-triggered re-probe that measures a thickness of 0 on an
environment constructed with 17px scrollbars, `nativeScrollbarSize.x`
is 0 while `nativeScrollbarIsOverlaid.x` is still `false`, because the
resize handler replaces only `nativeScrollbarSize`. -/
theorem overlaid_iff_zero_counterexample :
    (applyOps (Environment.construct probeClassic)
        [.addListener 7, .resize zoomEvent]).1.nativeScrollbarSize.x = 0 ∧
    (applyOps (Environment.construct probeClassic)
        [.addListener 7, .resize zoomEvent]).1.nativeScrollbarIsOverlaid.x = false := by
  norm_num [applyOps, applyOp, Environment.resizeStep, Environment.handleResize,
    Environment.addListener, Environment.construct, probeClassic, zoomEvent, isZoom,
    diffBiggerThanOne, nativeScrollbarSize, round_eq, beq_iff_eq, bne_iff_ne, List.isEmpty]

/-- **C1** (amended). At construction, `nativeScrollbarIsOverlaid.x` is
true iff `nativeScrollbarSize.x = 0` (likewise for `y`); afterwards
`nativeScrollbarIsOverlaid` is never modified by any sequence of
operations (re-probes replace only `nativeScrollbarSize`), so the iff
holds against the construction-time measurement but not necessarily
against the current one. -/
theorem overlaid_reflects_construction (p : ProbeInputs) (ops : List EnvOp) :
    ((Environment.construct p).nativeScrollbarIsOverlaid.x = true ↔
      (Environment.construct p).nativeScrollbarSize.x = 0) ∧
    ((Environment.construct p).nativeScrollbarIsOverlaid.y = true ↔
      (Environment.construct p).nativeScrollbarSize.y = 0) ∧
    (applyOps (Environment.construct p) ops).1.nativeScrollbarIsOverlaid =
      (Environment.construct p).nativeScrollbarIsOverlaid := by
  refine ⟨?_, ?_, applyOps_overlaid _ ops⟩ <;> simp [Environment.construct]

/-- **C4.** If at construction the measured scrollbars are overlaid on
both axes, the resize listener is never installed, and through any
subsequent sequence of operations (resize events included, listeners
added or not) `nativeScrollbarSize` keeps its construction-time value
and no effect — no re-probe, no element insertion or removal, no
notification — ever occurs. -/
theorem overlaid_both_inert (p : ProbeInputs) (ops : List EnvOp)
    (hx : (Environment.construct p).nativeScrollbarIsOverlaid.x = true)
    (hy : (Environment.construct p).nativeScrollbarIsOverlaid.y = true) :
    (Environment.construct p).resizeListenerInstalled = false ∧
    (applyOps (Environment.construct p) ops).1.nativeScrollbarSize =
      (Environment.construct p).nativeScrollbarSize ∧
    (applyOps (Environment.construct p) ops).2 = [] := by
  have hni : (Environment.construct p).resizeListenerInstalled = false := by
    show (!((Environment.construct p).nativeScrollbarIsOverlaid.x &&
        (Environment.construct p).nativeScrollbarIsOverlaid.y)) = false
    rw [hx, hy]
    rfl
  obtain ⟨h1, -, h3⟩ := applyOps_not_installed (Environment.construct p) ops hni
  exact ⟨hni, h1, h3⟩

/-- Witness for C4 on an overlay-scrollbar platform, with a listener
registered and a zoom-like resize dispatched afterwards. -/
theorem overlaid_both_inert_witness :
    (Environment.construct probeOverlaid).nativeScrollbarIsOverlaid.x = true ∧
    (Environment.construct probeOverlaid).nativeScrollbarIsOverlaid.y = true ∧
    ((Environment.construct probeOverlaid).resizeListenerInstalled = false ∧
      (applyOps (Environment.construct probeOverlaid)
          [.addListener 7, .resize zoomEvent]).1.nativeScrollbarSize =
        (Environment.construct probeOverlaid).nativeScrollbarSize ∧
      (applyOps (Environment.construct probeOverlaid)
          [.addListener 7, .resize zoomEvent]).2 = []) := by
  have hx : (Environment.construct probeOverlaid).nativeScrollbarIsOverlaid.x = true := by
    norm_num [Environment.construct, probeOverlaid, nativeScrollbarSize, beq_iff_eq]
  have hy : (Environment.construct probeOverlaid).nativeScrollbarIsOverlaid.y = true := by
    norm_num [Environment.construct, probeOverlaid, nativeScrollbarSize, beq_iff_eq]
  exact ⟨hx, hy, overlaid_both_inert probeOverlaid _ hx hy⟩

/-- Helper: a zoom-classified event cannot have both deltas zero. -/
theorem isZoom_delta_not_zero (s : Environment) (e : ResizeEvent) (hz : isZoom s e = true) :
    (e.sizeNew.w - s.size.w == 0 && e.sizeNew.h - s.size.h == 0) = false := by
  rw [Bool.eq_false_iff]
  intro h
  rw [Bool.and_eq_true, beq_iff_eq, beq_iff_eq] at h
  unfold isZoom at hz
  dsimp only at hz
  rw [Bool.and_eq_true, Bool.and_eq_true] at hz
  have h2 := hz.1.1
  rw [Bool.and_eq_true, decide_eq_true_eq, decide_eq_true_eq] at h2
  have h3 := h2.1
  rw [h.1] at h3
  norm_num at h3

/-- **C2** (counterexample). The claimed "zoom iff the three
conditions" equivalence fails with the specification's wording of the
closeness condition: at a concrete resize event (1000→900 on both axes,
DPR 1→2) the handler classifies a zoom (the measurement effect occurs),
yet the spec's conditions do not all hold, because the two percentage
ratios (90 and 90) differ by exactly 0 — which the spec's wording of
"close" excludes. -/
theorem zoom_conditions_counterexample :
    envClassic.onChangedListener ≠ [] ∧
    Effect.measure ∈ (envClassic.handleResize zoomEvent).2 ∧
    ¬specZoomAsWritten envClassic zoomEvent := by
  refine ⟨by decide, ?_, ?_⟩
  · norm_num [Environment.handleResize, envClassic, Environment.addListener,
      Environment.construct, probeClassic, zoomEvent, isZoom, diffBiggerThanOne,
      nativeScrollbarSize, round_eq, beq_iff_eq, bne_iff_ne, List.isEmpty]
  · intro hsp
    unfold specZoomAsWritten at hsp
    dsimp only at hsp
    obtain ⟨-, h2, -⟩ := hsp
    apply h2
    left
    norm_num [envClassic, Environment.addListener, Environment.construct, probeClassic,
      zoomEvent, round_eq]

/-- **C2** (amended). For every resize event processed while at least
one listener is registered, the handler classifies the event as a zoom
(observable as the re-probe measurement effect) if and only if all
three conditions hold: the absolute pixel delta on each axis exceeds
2px; the two per-axis percentage ratios (new dimension divided by old
dimension over 100, rounded, absolute value) are judged close, meaning
their absolute values **do** differ by exactly 0 or exactly 1; and the
device pixel ratio differs from the previously recorded baseline while
that baseline is positive. -/
theorem zoom_classified_iff (s : Environment) (e : ResizeEvent)
    (hl : s.onChangedListener ≠ []) :
    Effect.measure ∈ (s.handleResize e).2 ↔ specZoomAmended s e := by
  have hE : s.onChangedListener.isEmpty = false := by
    rw [Bool.eq_false_iff]
    intro h
    exact hl (List.isEmpty_iff.mp h)
  unfold Environment.handleResize
  dsimp only
  rw [hE]
  simp only [Bool.false_eq_true, if_false]
  by_cases hδ : (e.sizeNew.w - s.size.w == 0 && e.sizeNew.h - s.size.h == 0) = true
  · rw [if_pos hδ]
    simp only [List.not_mem_nil, false_iff]
    intro hsp
    unfold specZoomAmended at hsp
    dsimp only at hsp
    obtain ⟨⟨h1, -⟩, -, -⟩ := hsp
    rw [Bool.and_eq_true, beq_iff_eq, beq_iff_eq] at hδ
    rw [hδ.1] at h1
    norm_num at h1
  · rw [if_neg hδ]
    by_cases hz : isZoom s e = true
    · rw [if_pos hz]
      refine iff_of_true ?_ ((isZoom_iff_specZoomAmended s e).mp hz)
      simp
    · rw [if_neg hz]
      refine iff_of_false ?_ (fun hsp => hz ((isZoom_iff_specZoomAmended s e).mpr hsp))
      simp

/-- Witness for the amended C2 at a concrete environment and event. -/
theorem zoom_classified_iff_witness :
    envClassic.onChangedListener ≠ [] ∧
    (Effect.measure ∈ (envClassic.handleResize zoomEvent).2 ↔
      specZoomAmended envClassic zoomEvent) :=
  ⟨by decide, zoom_classified_iff envClassic zoomEvent (by decide)⟩

/-- **C3.** On a resize event classified as a zoom (processed with at
least one registered listener), the scrollbar-size measurement is
re-run and the measurement element removed; the stored
`nativeScrollbarSize` is updated to the newly measured value; and every
registered listener is invoked — with the environment whose
`nativeScrollbarSize` is already updated but whose baselines are not
yet — if and only if the new measurement differs from the previously
recorded one on the x or the y axis. -/
theorem zoom_reprobe_and_notify (s : Environment) (e : ResizeEvent)
    (hl : s.onChangedListener ≠ []) (hz : isZoom s e = true) :
    s.handleResize e =
      ({ s with
          nativeScrollbarSize := nativeScrollbarSize e.envClientSize e.envOffsetSize,
          size := e.sizeNew,
          dpr := e.dprNew },
        [Effect.measure, Effect.removeElm] ++
          (if s.nativeScrollbarSize.x ≠ (nativeScrollbarSize e.envClientSize e.envOffsetSize).x ∨
              s.nativeScrollbarSize.y ≠ (nativeScrollbarSize e.envClientSize e.envOffsetSize).y
            then s.onChangedListener.map (fun l => Effect.notify l
              { s with nativeScrollbarSize := nativeScrollbarSize e.envClientSize e.envOffsetSize })
            else [])) := by
  have hE : s.onChangedListener.isEmpty = false := by
    rw [Bool.eq_false_iff]
    intro h
    exact hl (List.isEmpty_iff.mp h)
  unfold Environment.handleResize
  dsimp only
  rw [hE]
  simp only [Bool.false_eq_true, if_false]
  rw [if_neg (by rw [isZoom_delta_not_zero s e hz]; simp), if_pos hz]
  simp only [Prod.mk.injEq, bne_iff_ne, Bool.or_eq_true]

/-- Witness for C3 at a concrete zoom event whose re-probe changes the
measured scrollbar size from 17px to 0px on both axes. -/
theorem zoom_reprobe_and_notify_witness :
    envClassic.onChangedListener ≠ [] ∧ isZoom envClassic zoomEvent = true ∧
    envClassic.handleResize zoomEvent =
      ({ envClassic with
          nativeScrollbarSize := nativeScrollbarSize zoomEvent.envClientSize zoomEvent.envOffsetSize,
          size := zoomEvent.sizeNew, dpr := zoomEvent.dprNew },
        [Effect.measure, Effect.removeElm] ++
          (if envClassic.nativeScrollbarSize.x ≠
              (nativeScrollbarSize zoomEvent.envClientSize zoomEvent.envOffsetSize).x ∨
              envClassic.nativeScrollbarSize.y ≠
              (nativeScrollbarSize zoomEvent.envClientSize zoomEvent.envOffsetSize).y
            then envClassic.onChangedListener.map (fun l => Effect.notify l
              { envClassic with nativeScrollbarSize :=
                  nativeScrollbarSize zoomEvent.envClientSize zoomEvent.envOffsetSize })
            else [])) := by
  have hz : isZoom envClassic zoomEvent = true := by
    norm_num [isZoom, diffBiggerThanOne, envClassic, Environment.addListener,
      Environment.construct, probeClassic, zoomEvent, round_eq, beq_iff_eq, bne_iff_ne]
  exact ⟨by decide, hz, zoom_reprobe_and_notify envClassic zoomEvent (by decide) hz⟩

/-! ## DOM helper lemmas -/

theorem contains_eq_false_iff (l : List Node) (n : Node) :
    l.contains n = false ↔ n ∉ l := by
  constructor
  · intro h hm
    rw [show l.contains n = l.elem n from rfl] at h
    rw [List.elem_iff.mpr hm] at h
    exact Bool.false_ne_true h.symm
  · intro h
    rw [show l.contains n = l.elem n from rfl]
    rw [Bool.eq_false_iff]
    intro hc
    exact h (List.elem_iff.mp hc)

theorem parentOf_none_iff (d : Dom) (n : Node) :
    parentOf d n = Option.none ↔ ∀ e ∈ d, n ∉ e.2 := by
  induction d with
  | nil => simp [parentOf]
  | cons e rest ih =>
    simp only [parentOf]
    split
    · rename_i hc
      simp only [reduceCtorEq, false_iff, not_forall]
      exact ⟨e, List.mem_cons_self e rest, fun hn => hn (List.elem_iff.mp hc)⟩
    · rename_i hc
      rw [ih]
      constructor
      · intro hall f hf
        rcases List.mem_cons.mp hf with rfl | hf'
        · exact (contains_eq_false_iff f.2 n).mp (Bool.eq_false_iff.mpr hc)
        · exact hall f hf'
      · intro hall f hf
        exact hall f (List.mem_cons_of_mem e hf)

theorem not_mem_childrenOf_of_parentOf_none (d : Dom) (n q : Node)
    (h : parentOf d n = Option.none) : n ∉ childrenOf d q := by
  induction d with
  | nil => simp [childrenOf]
  | cons e rest ih =>
    have hall := (parentOf_none_iff (e :: rest) n).mp h
    simp only [childrenOf]
    split
    · exact hall e (List.mem_cons_self e rest)
    · refine ih ?_
      rw [parentOf_none_iff]
      exact fun f hf => hall f (List.mem_cons_of_mem e hf)

theorem childrenOf_setChildren_same (d : Dom) (p : Node) (cs : List Node) :
    childrenOf (setChildren d p cs) p = cs := by
  induction d with
  | nil => simp [setChildren, childrenOf]
  | cons e rest ih =>
    simp only [setChildren]
    split
    · simp [childrenOf]
    · rename_i he
      simp only [childrenOf, he]
      exact ih

theorem childrenOf_setChildren_other (d : Dom) (p q : Node) (cs : List Node)
    (h : q ≠ p) : childrenOf (setChildren d p cs) q = childrenOf d q := by
  induction d with
  | nil =>
    simp only [setChildren, childrenOf]
    rw [if_neg (by simp [Ne.symm h])]
  | cons e rest ih =>
    simp only [setChildren]
    split
    · rename_i he
      have he' : e.1 = p := by simpa using he
      simp only [childrenOf]
      rw [if_neg (by simp [Ne.symm h]), if_neg (by simp [he' ▸ (Ne.symm h)])]
    · simp only [childrenOf]
      split
      · rfl
      · exact ih

theorem exists_entry_of_mem_childrenOf (d : Dom) (q n : Node)
    (h : n ∈ childrenOf d q) : ∃ e ∈ d, e.1 = q ∧ n ∈ e.2 := by
  induction d with
  | nil => simp [childrenOf] at h
  | cons e rest ih =>
    simp only [childrenOf] at h
    by_cases he : (e.1 == q) = true
    · rw [if_pos he] at h
      exact ⟨e, List.mem_cons_self e rest, by simpa using he, h⟩
    · rw [if_neg he] at h
      obtain ⟨f, hf, h1, h2⟩ := ih h
      exact ⟨f, List.mem_cons_of_mem e hf, h1, h2⟩

theorem WFDom_cons {e : Node × List Node} {rest : Dom} (h : WFDom (e :: rest)) :
    WFDom rest := by
  obtain ⟨h1, h2, h3⟩ := h
  exact ⟨(List.nodup_cons.mp h1).2, fun f hf => h2 f (List.mem_cons_of_mem e hf),
    (List.pairwise_cons.mp h3).2⟩

theorem WFDom_head_disjoint {e : Node × List Node} {rest : Dom} (h : WFDom (e :: rest)) :
    ∀ f ∈ rest, ∀ m ∈ e.2, m ∉ f.2 :=
  fun f hf m hm => (List.pairwise_cons.mp h.2.2).1 f hf m hm

theorem parentOf_mem_keys (d : Dom) (n p : Node) (h : parentOf d n = some p) :
    p ∈ d.map Prod.fst := by
  induction d with
  | nil => simp [parentOf] at h
  | cons e rest ih =>
    simp only [parentOf] at h
    split at h
    · simp only [Option.some.injEq] at h
      simp [← h]
    · simpa using Or.inr (ih h)

theorem parentOf_mem_childrenOf (d : Dom) (n p : Node)
    (hk : (d.map Prod.fst).Nodup) (h : parentOf d n = some p) :
    n ∈ childrenOf d p := by
  induction d with
  | nil => simp [parentOf] at h
  | cons e rest ih =>
    simp only [parentOf] at h
    simp only [childrenOf]
    split at h
    · rename_i hc
      simp only [Option.some.injEq] at h
      rw [if_pos (by simp [h])]
      exact List.elem_iff.mp hc
    · have hp : p ∈ rest.map Prod.fst := parentOf_mem_keys rest n p h
      have he : (e.1 == p) = false := by
        rw [beq_eq_false_iff_ne]
        intro hep
        exact (List.nodup_cons.mp (by simpa using hk)).1 (hep ▸ hp)
      rw [if_neg (by simp [he])]
      exact ih (List.nodup_cons.mp (by simpa using hk)).2 h

theorem not_mem_childrenOf_ne_parent (d : Dom) (n p q : Node) (hwf : WFDom d)
    (h : parentOf d n = some p) (hq : q ≠ p) : n ∉ childrenOf d q := by
  induction d with
  | nil => simp [childrenOf]
  | cons e rest ih =>
    simp only [parentOf] at h
    simp only [childrenOf]
    split at h
    · rename_i hc
      simp only [Option.some.injEq] at h
      rw [if_neg (by simp only [beq_iff_eq]; exact fun heq => hq (heq.symm.trans h))]
      intro hmem
      obtain ⟨f, hf, -, h2⟩ := exists_entry_of_mem_childrenOf rest q n hmem
      exact WFDom_head_disjoint hwf f hf n (List.elem_iff.mp hc) h2
    · rename_i hc
      split
      · exact (contains_eq_false_iff e.2 n).mp (Bool.eq_false_iff.mpr hc)
      · exact ih (WFDom_cons hwf) h

theorem childrenOf_nodup (d : Dom) (q : Node) (hwf : WFDom d) :
    (childrenOf d q).Nodup := by
  induction d with
  | nil => simp [childrenOf]
  | cons e rest ih =>
    simp only [childrenOf]
    split
    · exact hwf.2.1 e (List.mem_cons_self e rest)
    · exact ih (WFDom_cons hwf)

theorem keys_setChildren (d : Dom) (p : Node) (cs : List Node) :
    (setChildren d p cs).map Prod.fst =
      if hasEntry d p then d.map Prod.fst else d.map Prod.fst ++ [p] := by
  induction d with
  | nil => simp [setChildren, hasEntry]
  | cons e rest ih =>
    simp only [setChildren, hasEntry]
    by_cases he : (e.1 == p) = true
    · rw [if_pos he]
      have he' : e.1 = p := by simpa using he
      simp [he, he']
    · rw [if_neg he]
      have he' : (e.1 == p) = false := Bool.eq_false_iff.mpr he
      simp only [List.map_cons, ih, he', Bool.false_or]
      split <;> simp

theorem mem_setChildren (d : Dom) (p : Node) (cs : List Node) (f : Node × List Node)
    (hf : f ∈ setChildren d p cs) : f ∈ d ∨ f = (p, cs) := by
  induction d with
  | nil => simpa [setChildren] using hf
  | cons e rest ih =>
    simp only [setChildren] at hf
    split at hf
    · rcases List.mem_cons.mp hf with rfl | hf'
      · exact Or.inr rfl
      · exact Or.inl (List.mem_cons_of_mem e hf')
    · rcases List.mem_cons.mp hf with rfl | hf'
      · exact Or.inl (List.mem_cons_self _ _)
      · rcases ih hf' with h | h
        · exact Or.inl (List.mem_cons_of_mem e h)
        · exact Or.inr h

theorem WFDom_setChildren_sub (d : Dom) (p : Node) (cs : List Node) (hwf : WFDom d)
    (hsub : ∀ m ∈ cs, m ∈ childrenOf d p) (hnd : cs.Nodup) :
    WFDom (setChildren d p cs) := by
  induction d with
  | nil => exact ⟨by simp [setChildren], by simpa [setChildren] using hnd, by simp [setChildren]⟩
  | cons e rest ih =>
    simp only [setChildren]
    by_cases he : (e.1 == p) = true
    · rw [if_pos he]
      have he' : e.1 = p := by simpa using he
      have hch : childrenOf (e :: rest) p = e.2 := by simp [childrenOf, he]
      refine ⟨?_, ?_, ?_⟩
      · have := hwf.1
        simpa [he'] using this
      · intro f hf
        rcases List.mem_cons.mp hf with rfl | hf'
        · exact hnd
        · exact hwf.2.1 f (List.mem_cons_of_mem e hf')
      · rw [List.pairwise_cons]
        refine ⟨?_, (List.pairwise_cons.mp hwf.2.2).2⟩
        intro f hf m hm
        exact WFDom_head_disjoint hwf f hf m (hch ▸ hsub m hm)
    · rw [if_neg he]
      have hch : childrenOf (e :: rest) p = childrenOf rest p := by
        simp [childrenOf, he]
      have ihr := ih (WFDom_cons hwf) (fun m hm => hch ▸ hsub m hm)
      refine ⟨?_, ?_, ?_⟩
      · simp only [List.map_cons, List.nodup_cons]
        refine ⟨?_, ihr.1⟩
        rw [keys_setChildren]
        split
        · exact (List.nodup_cons.mp (by simpa using hwf.1)).1
        · simp only [List.mem_append, List.mem_singleton]
          rintro (hmem | rfl)
          · exact (List.nodup_cons.mp (by simpa using hwf.1)).1 hmem
          · exact he (by simp)
      · intro f hf
        rcases List.mem_cons.mp hf with rfl | hf'
        · exact hwf.2.1 f (List.mem_cons_self _ _)
        · exact ihr.2.1 f hf'
      · rw [List.pairwise_cons]
        refine ⟨?_, ihr.2.2⟩
        intro f hf m hm
        rcases mem_setChildren rest p cs f hf with hfd | rfl
        · exact WFDom_head_disjoint hwf f hfd m hm
        · intro hmcs
          obtain ⟨g, hg, -, h2⟩ :=
            exists_entry_of_mem_childrenOf rest p m (hch ▸ hsub m hmcs)
          exact WFDom_head_disjoint hwf g hg m hm h2

theorem WFDom_removeNode (d : Dom) (n : Node) (hwf : WFDom d) :
    WFDom (removeNode d n) := by
  unfold removeNode
  cases hpar : parentOf d n with
  | none => exact hwf
  | some p =>
    unfold removeChildOf
    exact WFDom_setChildren_sub d p _ hwf
      (fun m hm => List.erase_subset n (childrenOf d p) hm)
      ((childrenOf_nodup d p hwf).erase n)

theorem childrenOf_removeNode (d : Dom) (n q : Node) (hwf : WFDom d) :
    childrenOf (removeNode d n) q = (childrenOf d q).filter (fun c => c != n) := by
  unfold removeNode
  cases hpar : parentOf d n with
  | none =>
    rw [eq_comm, List.filter_eq_self]
    intro c hc
    rw [bne_iff_ne]
    intro rfl_eq
    exact not_mem_childrenOf_of_parentOf_none d n q hpar (rfl_eq ▸ hc)
  | some p =>
    unfold removeChildOf
    by_cases hq : q = p
    · subst hq
      rw [childrenOf_setChildren_same]
      exact (childrenOf_nodup d q hwf).erase_eq_filter n
    · rw [childrenOf_setChildren_other d p q _ hq, eq_comm, List.filter_eq_self]
      intro c hc
      rw [bne_iff_ne]
      intro rfl_eq
      exact not_mem_childrenOf_ne_parent d n p q hwf hpar hq (rfl_eq ▸ hc)

theorem removeElements_nodes_filter (d : Dom) (ns : List Node) (q : Node)
    (hwf : WFDom d) :
    childrenOf (removeElements d (.nodes ns)) q =
      (childrenOf d q).filter (fun c => !(ns.contains c)) := by
  induction ns generalizing d with
  | nil =>
    show childrenOf d q = _
    rw [eq_comm, List.filter_eq_self]
    intro c _
    rfl
  | cons m ms ih =>
    show childrenOf (ms.foldl removeNode (removeNode d m)) q = _
    have step := ih (removeNode d m) (WFDom_removeNode d m hwf)
    rw [show removeElements (removeNode d m) (.nodes ms) =
      ms.foldl removeNode (removeNode d m) from rfl] at step
    rw [step, childrenOf_removeNode d m q hwf, List.filter_filter]
    refine List.filter_congr ?_
    intro c _
    rw [List.contains_cons, Bool.not_or]
    rw [Bool.and_comm]
    rfl

theorem contains_eq_true_iff (l : List Node) (n : Node) :
    l.contains n = true ↔ n ∈ l :=
  ⟨fun h => List.elem_iff.mp h, fun h => List.elem_iff.mpr h⟩

theorem hasEntry_eq_false_iff (d : Dom) (p : Node) :
    hasEntry d p = false ↔ ∀ e ∈ d, e.1 ≠ p := by
  induction d with
  | nil => simp [hasEntry]
  | cons e rest ih =>
    simp only [hasEntry, Bool.or_eq_false_iff, ih]
    constructor
    · rintro ⟨h1, h2⟩ f hf
      rcases List.mem_cons.mp hf with rfl | hf'
      · simpa using h1
      · exact h2 f hf'
    · intro h
      refine ⟨by simpa using h e (List.mem_cons_self e rest), fun f hf =>
        h f (List.mem_cons_of_mem e hf)⟩

theorem childrenOf_append_left (d d' : Dom) (p : Node) (h : hasEntry d p = true) :
    childrenOf (d ++ d') p = childrenOf d p := by
  induction d with
  | nil => simp [hasEntry] at h
  | cons e rest ih =>
    simp only [hasEntry, Bool.or_eq_true] at h
    simp only [List.cons_append, childrenOf]
    split
    · rfl
    · rename_i he
      exact ih (h.resolve_left he)

theorem childrenOf_append_right (d d' : Dom) (p : Node) (h : hasEntry d p = false) :
    childrenOf (d ++ d') p = childrenOf d' p := by
  induction d with
  | nil => simp
  | cons e rest ih =>
    simp only [hasEntry, Bool.or_eq_false_iff] at h
    simp only [List.cons_append, childrenOf]
    rw [if_neg (by simp [h.1])]
    exact ih h.2

theorem parentOf_append (d d' : Dom) (n : Node) :
    parentOf (d ++ d') n =
      match parentOf d n with
      | some p => some p
      | Option.none => parentOf d' n := by
  induction d with
  | nil => simp [parentOf]
  | cons e rest ih =>
    simp only [List.cons_append, parentOf]
    split
    · rfl
    · exact ih

theorem setChildren_append_left (d d' : Dom) (p : Node) (cs : List Node)
    (h : hasEntry d p = true) :
    setChildren (d ++ d') p cs = setChildren d p cs ++ d' := by
  induction d with
  | nil => simp [hasEntry] at h
  | cons e rest ih =>
    simp only [hasEntry, Bool.or_eq_true] at h
    simp only [List.cons_append, setChildren, List.append_eq]
    split
    · rfl
    · rename_i he
      rw [ih (h.resolve_left he)]
      rfl

theorem setChildren_append_right (d d' : Dom) (p : Node) (cs : List Node)
    (h : hasEntry d p = false) :
    setChildren (d ++ d') p cs = d ++ setChildren d' p cs := by
  induction d with
  | nil => rfl
  | cons e rest ih =>
    simp only [hasEntry, Bool.or_eq_false_iff] at h
    simp only [List.cons_append, setChildren, List.append_eq]
    rw [if_neg (by simp [h.1]), ih h.2]

theorem mem_le_listMax (l : List ℕ) (x : ℕ) (h : x ∈ l) : x ≤ listMax l := by
  induction l with
  | nil => simp at h
  | cons a as ih =>
    rcases List.mem_cons.mp h with rfl | h'
    · exact le_max_left _ _
    · exact le_trans (ih h') (le_max_right _ _)

theorem entry_le_nodeBound (d : Dom) (e : Node × List Node) (h : e ∈ d) :
    e.1 ≤ nodeBound d ∧ ∀ n ∈ e.2, n ≤ nodeBound d := by
  induction d with
  | nil => simp at h
  | cons f rest ih =>
    rcases List.mem_cons.mp h with rfl | h'
    · constructor
      · exact le_trans (le_max_left _ _) (le_max_left _ _)
      · intro n hn
        exact le_trans (le_trans (mem_le_listMax _ _ hn) (le_max_right _ _))
          (le_max_left _ _)
    · obtain ⟨h1, h2⟩ := ih h'
      exact ⟨le_trans h1 (le_max_right _ _),
        fun n hn => le_trans (h2 n hn) (le_max_right _ _)⟩

theorem hasEntry_freshNode (d : Dom) : hasEntry d (freshNode d) = false := by
  rw [hasEntry_eq_false_iff]
  intro e he heq
  have h1 := (entry_le_nodeBound d e he).1
  rw [heq] at h1
  have h2 : nodeBound d + 1 <= nodeBound d := h1
  omega

theorem hasEntry_iff_mem_keys (d : Dom) (p : Node) :
    hasEntry d p = true ↔ p ∈ d.map Prod.fst := by
  induction d with
  | nil => simp [hasEntry]
  | cons e rest ih =>
    simp only [hasEntry, Bool.or_eq_true, List.map_cons, List.mem_cons, ih,
      beq_iff_eq]
    constructor
    · rintro (h | h)
      · exact Or.inl h.symm
      · exact Or.inr h
    · rintro (h | h)
      · exact Or.inl h.symm
      · exact Or.inr h

theorem hasEntry_of_childrenOf_ne_nil (d : Dom) (p : Node)
    (h : childrenOf d p ≠ []) : hasEntry d p = true := by
  induction d with
  | nil => simp [childrenOf] at h
  | cons e rest ih =>
    simp only [childrenOf] at h
    simp only [hasEntry, Bool.or_eq_true]
    by_cases he : (e.1 == p) = true
    · exact Or.inl he
    · rw [if_neg he] at h
      exact Or.inr (ih h)

theorem eraseEntry_of_not_hasEntry (d : Dom) (q : Node) (h : hasEntry d q = false) :
    eraseEntry d q = d := by
  unfold eraseEntry
  rw [List.filter_eq_self]
  intro e he
  rw [bne_iff_ne]
  exact (hasEntry_eq_false_iff d q).mp h e he

theorem spliceBefore_eq (pre post ns : List Node) (a : Node) (hpre : a ∉ pre) :
    spliceBefore (pre ++ a :: post) a ns = pre ++ ns ++ a :: post := by
  induction pre with
  | nil => simp [spliceBefore]
  | cons x xs ih =>
    simp only [List.cons_append, spliceBefore, List.append_eq]
    rw [if_neg (by
      simp only [beq_iff_eq]
      exact fun h => hpre (List.mem_cons.mpr (Or.inl h.symm)))]
    rw [ih (fun h => hpre (List.mem_cons_of_mem x h))]

theorem buildFragment_detached (fragId : Node) (d : Dom) (acc elms : List Node)
    (anchor : Option Node)
    (hfresh : hasEntry d fragId = false)
    (hdet : ∀ n ∈ elms, parentOf d n = Option.none)
    (hacc : ∀ n ∈ elms, n ∉ acc)
    (hanchor : ∀ n ∈ elms, anchor ≠ some n)
    (hnd : elms.Nodup) :
    buildFragment fragId (d ++ [(fragId, acc)], anchor) elms =
      (d ++ [(fragId, acc ++ elms)], anchor) := by
  induction elms generalizing acc with
  | nil => simp [buildFragment]
  | cons elm rest ih =>
    simp only [buildFragment]
    rw [if_neg (fun h => hanchor elm (List.mem_cons_self _ _) (eq_of_beq h))]
    have hpar : parentOf (d ++ [(fragId, acc)]) elm = Option.none := by
      rw [parentOf_append, hdet elm (List.mem_cons_self _ _)]
      simp only [parentOf]
      rw [if_neg (fun h =>
        hacc elm (List.mem_cons_self _ _) ((contains_eq_true_iff acc elm).mp h))]
    have happ : domAppendChild (d ++ [(fragId, acc)]) fragId elm =
        d ++ [(fragId, acc ++ [elm])] := by
      unfold domAppendChild removeNode
      rw [hpar]
      dsimp only
      rw [childrenOf_append_right _ _ _ hfresh,
        show childrenOf [(fragId, acc)] fragId = acc by simp [childrenOf],
        setChildren_append_right _ _ _ _ hfresh,
        show setChildren [(fragId, acc)] fragId (acc ++ [elm]) =
          [(fragId, acc ++ [elm])] by simp [setChildren]]
    rw [happ]
    have hrest := ih (acc ++ [elm])
      (fun n hn => hdet n (List.mem_cons_of_mem elm hn))
      (fun n hn => by
        simp only [List.mem_append, List.mem_singleton]
        rintro (hmem | rfl)
        · exact hacc n (List.mem_cons_of_mem elm hn) hmem
        · exact (List.nodup_cons.mp hnd).1 hn)
      (fun n hn => hanchor n (List.mem_cons_of_mem elm hn))
      (List.nodup_cons.mp hnd).2
    rw [hrest]
    simp

theorem foldl_removeNode_frag (d : Dom) (fragId : Node) (ns rest : List Node)
    (hfresh : hasEntry d fragId = false)
    (hdet : ∀ n ∈ ns, parentOf d n = Option.none)
    (hnd : (ns ++ rest).Nodup) :
    ns.foldl removeNode (d ++ [(fragId, ns ++ rest)]) = d ++ [(fragId, rest)] := by
  induction ns generalizing rest with
  | nil => simp
  | cons m ms ih =>
    simp only [List.foldl_cons]
    have hpar : parentOf (d ++ [(fragId, (m :: ms) ++ rest)]) m = some fragId := by
      rw [parentOf_append, hdet m (List.mem_cons_self _ _)]
      simp only [parentOf]
      rw [if_pos (by
        rw [contains_eq_true_iff]
        exact List.mem_append_left _ (List.mem_cons_self _ _))]
    have hrm : removeNode (d ++ [(fragId, (m :: ms) ++ rest)]) m =
        d ++ [(fragId, ms ++ rest)] := by
      unfold removeNode
      rw [hpar]
      dsimp only
      unfold removeChildOf
      rw [childrenOf_append_right _ _ _ hfresh,
        show childrenOf [(fragId, (m :: ms) ++ rest)] fragId = (m :: ms) ++ rest by
          simp [childrenOf],
        setChildren_append_right _ _ _ _ hfresh]
      rw [List.cons_append, List.erase_cons_head]
      simp [setChildren]
    rw [hrm]
    exact ih rest (fun n hn => hdet n (List.mem_cons_of_mem m hn))
      (by
        rw [List.cons_append, List.nodup_cons] at hnd
        exact hnd.2)

/-- **C9.** The insertion and removal operations never raise an error
on degenerate input: `before` with a null reference node leaves the
document tree entirely unchanged (for every anchor and collection);
`removeElements` applied to a node with no parent is a no-op; and
applied to a collection mixing parented and unparented nodes it
detaches exactly the parented members, leaving every node's remaining
children in their original relative order (the children of any node `q`
afterwards are its previous children with the collection's members
filtered out). -/
theorem degenerate_inputs_no_error (d : Dom) (anchor : Option Node)
    (c : NodeCollection) (n : Node) (ns : List Node) (q : Node)
    (hn : parentOf d n = Option.none) (hwf : WFDom d) :
    before d Option.none anchor c = .ok d ∧
    removeElements d (.node n) = d ∧
    childrenOf (removeElements d (.nodes ns)) q =
      (childrenOf d q).filter (fun x => !(ns.contains x)) := by
  refine ⟨?_, ?_, removeElements_nodes_filter d ns q hwf⟩
  · cases c <;> rfl
  · show removeNode d n = d
    unfold removeNode
    rw [hn]

/-- Witness for C9: a tree with two parents; node 9 is unparented; the
mixed collection `[3, 9]` removes only `3` and keeps sibling order. -/
theorem degenerate_inputs_no_error_witness :
    parentOf [(1, [2, 3, 4]), (5, [6])] 9 = Option.none ∧
    WFDom [(1, [2, 3, 4]), (5, [6])] ∧
    (before [(1, [2, 3, 4]), (5, [6])] Option.none (some 2) (.nodes [9]) =
        .ok [(1, [2, 3, 4]), (5, [6])] ∧
      removeElements [(1, [2, 3, 4]), (5, [6])] (.node 9) = [(1, [2, 3, 4]), (5, [6])] ∧
      childrenOf (removeElements [(1, [2, 3, 4]), (5, [6])] (.nodes [3, 9])) 1 =
        (childrenOf [(1, [2, 3, 4]), (5, [6])] 1).filter
          (fun x => !(([3, 9] : List Node).contains x))) :=
  ⟨by decide, ⟨by decide, by decide, by decide⟩,
    degenerate_inputs_no_error _ (some 2) (.nodes [9]) 9 [3, 9] 1 (by decide)
      ⟨by decide, by decide, by decide⟩⟩

/-- **C8.** For every parent, anchor and collection of inserted nodes
meeting the DOM's sanity conditions (the anchor is a child of the
parent, the inserted nodes are distinct and currently detached, and the
anchor is not itself inserted), `before` inserts all given nodes, in
their given input order, as children of the parent immediately before
the anchor; and in the claim's anchor-moved scenario — inserting
`[c, e]` before `c` under a parent with children `[c, d]` — the call
succeeds (no error) and produces the correctly ordered children
`[c, e, d]` with no duplicate of `c`. -/
theorem before_inserts_in_order (d : Dom) (p a : Node) (pre post elms : List Node)
    (hch : childrenOf d p = pre ++ a :: post)
    (hpre : a ∉ pre)
    (hdet : ∀ n ∈ elms, parentOf d n = Option.none)
    (hnd : elms.Nodup)
    (hna : a ∉ elms) :
    (before d (some p) (some a) (.nodes elms) =
      .ok (setChildren d p (pre ++ elms ++ a :: post)) ∧
     childrenOf (setChildren d p (pre ++ elms ++ a :: post)) p =
       pre ++ elms ++ a :: post) ∧
    before [(1, [2, 3])] (some 1) (some 2) (.nodes [2, 6]) = .ok [(1, [2, 6, 3])] := by
  refine ⟨⟨?_, childrenOf_setChildren_same d p _⟩, by rfl⟩
  have hasp : hasEntry d p = true := hasEntry_of_childrenOf_ne_nil d p (by
    rw [hch]
    exact List.append_ne_nil_of_right_ne_nil _ (by simp))
  have hloop := buildFragment_detached (freshNode d) d [] elms (some a)
    (hasEntry_freshNode d) hdet (by simp)
    (fun n hn h => hna (by rw [Option.some_inj.mp h]; exact hn)) hnd
  rw [List.nil_append] at hloop
  have hch1 : childrenOf (d ++ [(freshNode d, elms)]) p = pre ++ a :: post := by
    rw [childrenOf_append_left _ _ _ hasp, hch]
  have hfragch : childrenOf (d ++ [(freshNode d, elms)]) (freshNode d) = elms := by
    rw [childrenOf_append_right _ _ _ (hasEntry_freshNode d)]
    simp [childrenOf]
  have hfold : elms.foldl removeNode (d ++ [(freshNode d, elms)]) =
      d ++ [(freshNode d, [])] := by
    have h := foldl_removeNode_frag d (freshNode d) elms [] (hasEntry_freshNode d) hdet
      (by simpa using hnd)
    simpa using h
  have hins : domInsertNodesBefore (d ++ [(freshNode d, elms)]) p elms (some a) =
      .ok (setChildren d p (pre ++ elms ++ a :: post) ++ [(freshNode d, [])]) := by
    unfold domInsertNodesBefore
    dsimp only
    rw [if_pos (by
      rw [hch1, contains_eq_true_iff]
      exact List.mem_append_right _ (List.mem_cons_self _ _))]
    rw [show elms.contains a = false from (contains_eq_false_iff elms a).mpr hna]
    simp only [Bool.false_eq_true, if_false]
    rw [hfold]
    rw [childrenOf_append_left _ _ _ hasp, hch, spliceBefore_eq pre post elms a hpre]
    rw [setChildren_append_left _ _ _ _ hasp]
  have hkeys : (setChildren d p (pre ++ elms ++ a :: post)).map Prod.fst =
      d.map Prod.fst := by
    rw [keys_setChildren, if_pos hasp]
  have hfreshset : hasEntry (setChildren d p (pre ++ elms ++ a :: post))
      (freshNode d) = false := by
    rw [Bool.eq_false_iff]
    intro ht
    have hm := (hasEntry_iff_mem_keys _ _).mp ht
    rw [hkeys] at hm
    have hcontra := (hasEntry_iff_mem_keys d (freshNode d)).mpr hm
    rw [hasEntry_freshNode d] at hcontra
    exact Bool.false_ne_true hcontra
  unfold before
  dsimp only
  rw [hloop]
  dsimp only
  rw [if_pos (by simp), hfragch, hins]
  dsimp only
  rw [show eraseEntry
      (setChildren d p (pre ++ elms ++ a :: post) ++ [(freshNode d, [])])
      (freshNode d) = setChildren d p (pre ++ elms ++ a :: post) from by
    unfold eraseEntry
    rw [List.filter_append]
    rw [show List.filter (fun e => e.1 != freshNode d)
        (setChildren d p (pre ++ elms ++ a :: post)) =
        setChildren d p (pre ++ elms ++ a :: post) from
      eraseEntry_of_not_hasEntry _ _ hfreshset]
    simp]

/-- Witness for C8 at the claim's first scenario: inserting the
detached nodes `[4, 5]` before anchor `2` under parent `1` with
children `[2, 3]` yields children `[4, 5, 2, 3]`. -/
theorem before_inserts_in_order_witness :
    childrenOf [(1, [2, 3])] 1 = [] ++ 2 :: [3] ∧
    (2 : Node) ∉ ([] : List Node) ∧
    (∀ n ∈ ([4, 5] : List Node), parentOf [(1, [2, 3])] n = Option.none) ∧
    ([4, 5] : List Node).Nodup ∧
    (2 : Node) ∉ ([4, 5] : List Node) ∧
    ((before [(1, [2, 3])] (some 1) (some 2) (.nodes [4, 5]) =
        .ok (setChildren [(1, [2, 3])] 1 ([] ++ [4, 5] ++ 2 :: [3])) ∧
      childrenOf (setChildren [(1, [2, 3])] 1 ([] ++ [4, 5] ++ 2 :: [3])) 1 =
        [] ++ [4, 5] ++ 2 :: [3]) ∧
      before [(1, [2, 3])] (some 1) (some 2) (.nodes [2, 6]) = .ok [(1, [2, 6, 3])]) :=
  ⟨by decide, by decide, by decide, by decide, by decide,
    before_inserts_in_order [(1, [2, 3])] 1 2 [] [3] [4, 5]
      (by decide) (by decide) (by decide) (by decide) (by decide)⟩

end OverlayScrollbars
